import Mathlib

/-!
# Verification of the day-23 amphipod burrow search (`src/d23/src/main.rs`)

This file gives a shallow embedding of the data model and operations of the
burrow state-space search: positions, the step-walk between positions, burrow
states backed by per-type position slices, the occupancy/blocking queries, the
heuristic `min_energy`, the move application `apply_movement`, and the
legal-move generator `StateGraph::edges`.  Machine integers (`u8` offsets and
depths, `u32` energies) are modelled as `Nat`; all quantities that arise stay
far below `2^32`, so no wrap-around modelling is needed.  The source's panics
(`unwrap`, `panic!`) are modelled as `Option` results.
-/

namespace D23

/-- The four token types (`enum Amphipod`). -/
inductive Amphipod where
  | Amber
  | Bronze
  | Copper
  | Desert
deriving DecidableEq, Repr

/-- `pub type Room = Amphipod;` -/
abbrev Room := Amphipod

/-- `ALL_AMPHIPOD_TYPES` -/
def allAmphipodTypes : List Amphipod := [.Amber, .Bronze, .Copper, .Desert]

/-- Declaration index of an `Amphipod`, used to model the derived `Ord`. -/
def Amphipod.idx : Amphipod → Nat
  | .Amber => 0
  | .Bronze => 1
  | .Copper => 2
  | .Desert => 3

/-- The derived `Ord` on `Amphipod` (declaration order). -/
def Amphipod.cmp (a b : Amphipod) : Ordering := compare a.idx b.idx

/-- `enum Position`: a hallway cell (offset) or a room cell (room, depth).
`u8` fields are modelled as `Nat`. -/
inductive Position where
  | Hallway : Nat → Position
  | Room : Room → Nat → Position
deriving DecidableEq, Repr

/-- `Position::hallway_pos`: the hallway offset of a hallway cell, or the
offset of the room's mouth. -/
def Position.hallway_pos : Position → Nat
  | .Hallway n => n
  | .Room .Amber _ => 2
  | .Room .Bronze _ => 4
  | .Room .Copper _ => 6
  | .Room .Desert _ => 8

/-- `Position::into_hallway`. -/
def Position.into_hallway : Position → Position
  | .Hallway n => .Hallway n
  | .Room .Amber _ => .Hallway 2
  | .Room .Bronze _ => .Hallway 4
  | .Room .Copper _ => .Hallway 6
  | .Room .Desert _ => .Hallway 8

/-- The hand-written `Ord for Position`: equal values compare `eq`; rooms sort
before hallway cells; hallway cells by offset; cells of the same room by
*reversed* depth; cells of different rooms by room. -/
def Position.cmp (p q : Position) : Ordering :=
  if p = q then .eq
  else
    match p, q with
    | .Room _ _, .Hallway _ => .lt
    | .Hallway m, .Hallway n => compare m n
    | .Room ar ad, .Room br bd =>
        if ar = br then compare bd ad else Amphipod.cmp ar br
    | _, _ => .gt

/-- The (non-strict) order induced by `Position.cmp`, used by `slice::sort`. -/
def posLe (p q : Position) : Prop := Position.cmp p q ≠ .gt

instance : DecidableRel posLe := fun p q => by unfold posLe; infer_instance

/-- `Amphipod.idx` is injective. -/
theorem Amphipod.idx_inj {a b : Amphipod} (h : a.idx = b.idx) : a = b := by
  cases a <;> cases b <;> first | rfl | simp [Amphipod.idx] at h

/-- Explicit description of the position order: rooms before hallway cells,
hallway by offset, same room by reversed depth, different rooms by room. -/
def posLeSpec : Position → Position → Prop
  | .Hallway m, .Hallway n => m ≤ n
  | .Room _ _, .Hallway _ => True
  | .Hallway _, .Room _ _ => False
  | .Room a d, .Room b e => (a = b ∧ e ≤ d) ∨ a.idx < b.idx

theorem posLe_iff {p q : Position} : posLe p q ↔ posLeSpec p q := by
  by_cases hpq : p = q
  · subst hpq
    cases p with
    | Hallway m => simp [posLe, Position.cmp, posLeSpec]
    | Room a d => simp [posLe, Position.cmp, posLeSpec]
  cases p with
  | Hallway m =>
    cases q with
    | Hallway n =>
      have hmn : ¬ m = n := fun h => hpq (by rw [h])
      simp only [posLe, Position.cmp, if_neg hpq, posLeSpec]
      rw [ne_eq, Nat.compare_eq_gt]
      omega
    | Room b e =>
      simp [posLe, Position.cmp, if_neg hpq, posLeSpec]
  | Room a d =>
    cases q with
    | Hallway n =>
      simp [posLe, Position.cmp, if_neg hpq, posLeSpec]
    | Room b e =>
      simp only [posLe, Position.cmp, if_neg hpq, posLeSpec]
      by_cases hab : a = b
      · subst hab
        have hde : ¬ d = e := fun h => hpq (by rw [h])
        rw [if_pos rfl, ne_eq, Nat.compare_eq_gt]
        constructor
        · intro h; exact Or.inl ⟨rfl, by omega⟩
        · rintro (⟨-, h⟩ | h)
          · omega
          · omega
      · have hne : ¬ Amphipod.idx a = Amphipod.idx b :=
          fun h => hab (Amphipod.idx_inj h)
        rw [if_neg hab, Amphipod.cmp, ne_eq, Nat.compare_eq_gt]
        constructor
        · intro h; exact Or.inr (by omega)
        · rintro (⟨h, -⟩ | h)
          · exact absurd h hab
          · omega

theorem posLe_total (p q : Position) : posLe p q ∨ posLe q p := by
  rw [posLe_iff, posLe_iff]
  cases p with
  | Hallway m =>
    cases q with
    | Hallway n => exact Nat.le_total m n
    | Room b e => exact Or.inr trivial
  | Room a d =>
    cases q with
    | Hallway n => exact Or.inl trivial
    | Room b e =>
      by_cases hab : a = b
      · subst hab
        rcases Nat.le_total e d with h | h
        · exact Or.inl (Or.inl ⟨rfl, h⟩)
        · exact Or.inr (Or.inl ⟨rfl, h⟩)
      · have hne : ¬ Amphipod.idx a = Amphipod.idx b :=
          fun h => hab (Amphipod.idx_inj h)
        rcases Nat.lt_or_ge a.idx b.idx with h | h
        · exact Or.inl (Or.inr h)
        · exact Or.inr (Or.inr (by omega))

theorem posLe_antisymm (p q : Position) : posLe p q → posLe q p → p = q := by
  rw [posLe_iff, posLe_iff]
  cases p with
  | Hallway m =>
    cases q with
    | Hallway n =>
      intro h1 h2; rw [Nat.le_antisymm h1 h2]
    | Room b e => intro h; exact absurd h not_false
  | Room a d =>
    cases q with
    | Hallway n => intro _ h; exact absurd h not_false
    | Room b e =>
      rintro (⟨hab, h1⟩ | h1) (⟨hba, h2⟩ | h2)
      · subst hab; rw [Nat.le_antisymm h2 h1]
      · subst hab; omega
      · subst hba; omega
      · omega

theorem posLe_trans (p q r : Position) : posLe p q → posLe q r → posLe p r := by
  rw [posLe_iff, posLe_iff, posLe_iff]
  cases p with
  | Hallway m =>
    cases q with
    | Hallway n =>
      cases r with
      | Hallway k => exact Nat.le_trans
      | Room c f => intro _ h; exact absurd h not_false
    | Room b e => intro h; exact absurd h not_false
  | Room a d =>
    cases q with
    | Hallway n =>
      cases r with
      | Hallway k => intro _ _; trivial
      | Room c f => intro _ h; exact absurd h not_false
    | Room b e =>
      cases r with
      | Hallway k => intro _ _; trivial
      | Room c f =>
        rintro (⟨hab, h1⟩ | h1) (⟨hbc, h2⟩ | h2)
        · subst hab; subst hbc; exact Or.inl ⟨rfl, Nat.le_trans h2 h1⟩
        · subst hab; exact Or.inr h2
        · subst hbc; exact Or.inr h1
        · exact Or.inr (Nat.lt_trans h1 h2)

instance : IsTotal Position posLe := ⟨posLe_total⟩
instance : IsTrans Position posLe := ⟨posLe_trans⟩
instance : IsAntisymm Position posLe := ⟨posLe_antisymm⟩

/-! ## Paths and the step walk

`Path` is a (start, end) pair; `PathWalk` enumerates the cells from start to
end through the corridor/room topology.  The iterator state update from
`PathWalk::next` is captured by `walkNext`, and the full enumeration by the
recursive `walk`. -/

/-- `pub struct Path([Position; 2])` with `start()` and `end()`.  The end
position is called `stop` because `end` is reserved. -/
structure Path where
  start : Position
  stop : Position
deriving DecidableEq, Repr

/-- The state update of `PathWalk::next`: the successor cell of `p` on the
walk toward `e` (only meaningful when `p ≠ e`).  In the hallway-to-room arm
the source extracts the room's mouth offset via `into_hallway` (the `panic!`
there is unreachable because `into_hallway` of a room is a hallway cell). -/
def walkNext (p e : Position) : Position :=
  match p, e with
  | .Hallway n, .Room a _ =>
      let t := (Position.Room a 0).hallway_pos
      if n = t then .Room a 0
      else .Hallway (if n < t then n + 1 else n - 1)
  | .Hallway a, .Hallway b => .Hallway (if a < b then a + 1 else a - 1)
  | .Room aa ad, .Room ba bd =>
      if aa = ba then .Room aa (if bd < ad then ad - 1 else ad + 1)
      else if ad = 0 then (Position.Room aa ad).into_hallway
      else .Room aa (ad - 1)
  | .Room a d, .Hallway _ =>
      if d = 0 then (Position.Room a d).into_hallway
      else .Room a (d - 1)

/-- Natural distance |a - b|. -/
def ndist (a b : Nat) : Nat := max a b - min a b

/-- Termination measure for `walk`: the number of steps remaining. -/
def walkMeasure (p e : Position) : Nat :=
  match p, e with
  | .Hallway m, .Hallway n => ndist m n
  | .Hallway n, .Room b e => ndist n (Position.Room b 0).hallway_pos + 1 + e
  | .Room a d, .Hallway n => d + 1 + ndist (Position.Room a 0).hallway_pos n
  | .Room a d, .Room b e =>
      if a = b then ndist d e
      else d + 1 + ndist (Position.Room a 0).hallway_pos (Position.Room b 0).hallway_pos + 1 + e

theorem hallway_pos_room (a : Room) (d : Nat) :
    (Position.Room a d).hallway_pos = (Position.Room a 0).hallway_pos := by
  cases a <;> rfl

theorem into_hallway_room (a : Room) (d : Nat) :
    (Position.Room a d).into_hallway = .Hallway ((Position.Room a 0).hallway_pos) := by
  cases a <;> rfl

theorem walkMeasure_hh (m n : Nat) :
    walkMeasure (.Hallway m) (.Hallway n) = ndist m n := rfl

theorem walkMeasure_hr (n : Nat) (b : Room) (e : Nat) :
    walkMeasure (.Hallway n) (.Room b e)
      = ndist n (Position.Room b 0).hallway_pos + 1 + e := rfl

theorem walkMeasure_rh (a : Room) (d n : Nat) :
    walkMeasure (.Room a d) (.Hallway n)
      = d + 1 + ndist (Position.Room a 0).hallway_pos n := rfl

theorem walkMeasure_rr_same (a : Room) (d e : Nat) :
    walkMeasure (.Room a d) (.Room a e) = ndist d e := by
  simp [walkMeasure]

theorem walkMeasure_rr_diff {a b : Room} (hab : a ≠ b) (d e : Nat) :
    walkMeasure (.Room a d) (.Room b e)
      = d + 1 + ndist (Position.Room a 0).hallway_pos (Position.Room b 0).hallway_pos
          + 1 + e := by
  simp [walkMeasure, hab]

/-- Each walk step lowers the measure by exactly one. -/
theorem walkMeasure_succ (p e : Position) (h : p ≠ e) :
    walkMeasure p e = walkMeasure (walkNext p e) e + 1 := by
  cases p with
  | Hallway n =>
    cases e with
    | Hallway m =>
      have hnm : n ≠ m := fun hh => h (by rw [hh])
      simp only [walkNext, walkMeasure_hh]
      by_cases hlt : n < m
      · rw [if_pos hlt]; simp only [ndist]; omega
      · rw [if_neg hlt]; simp only [ndist]; omega
    | Room b d =>
      simp only [walkNext, walkMeasure_hr]
      by_cases ht : n = (Position.Room b 0).hallway_pos
      · rw [if_pos ht, walkMeasure_rr_same]
        simp only [ndist]
        omega
      · rw [if_neg ht, walkMeasure_hr]
        simp only [ndist]
        by_cases hlt : n < (Position.Room b 0).hallway_pos
        · rw [if_pos hlt]; omega
        · rw [if_neg hlt]; omega
  | Room a d =>
    cases e with
    | Hallway m =>
      simp only [walkNext, walkMeasure_rh]
      by_cases hd : d = 0
      · rw [if_pos hd, into_hallway_room, walkMeasure_hh]
        simp only [ndist]
        omega
      · rw [if_neg hd, walkMeasure_rh]
        simp only [ndist]
        omega
    | Room b f =>
      simp only [walkNext]
      by_cases hab : a = b
      · subst hab
        have hdf : d ≠ f := fun hh => h (by rw [hh])
        rw [if_pos rfl, walkMeasure_rr_same, walkMeasure_rr_same]
        simp only [ndist]
        by_cases hlt : f < d
        · rw [if_pos hlt]; omega
        · rw [if_neg hlt]; omega
      · rw [if_neg hab, walkMeasure_rr_diff hab]
        by_cases hd : d = 0
        · rw [if_pos hd, into_hallway_room, walkMeasure_hr]
          simp only [ndist]
          omega
        · rw [if_neg hd, walkMeasure_rr_diff hab]
          simp only [ndist]
          omega

theorem walkMeasure_decreases (p e : Position) (h : p ≠ e) :
    walkMeasure (walkNext p e) e < walkMeasure p e := by
  rw [walkMeasure_succ p e h]; omega

/-- Fuel-driven unrolling of the `PathWalk` iterator (structural recursion,
so that the kernel can evaluate walks). -/
def walkF : Nat → Position → Position → List Position
  | 0, _, _ => []
  | fuel + 1, p, e => if p = e then [p] else p :: walkF fuel (walkNext p e) e

/-- `Path::walk` collected into a list: the cells from `p` to `e` inclusive.
`walkMeasure p e + 1` cells are visited, so that much fuel is exact. -/
def walk (p e : Position) : List Position := walkF (walkMeasure p e + 1) p e

theorem walkF_congr (fuel₁ : Nat) :
    ∀ (fuel₂ : Nat) (p e : Position), walkMeasure p e < fuel₁ →
      walkMeasure p e < fuel₂ → walkF fuel₁ p e = walkF fuel₂ p e := by
  induction fuel₁ with
  | zero => intro fuel₂ p e h₁ _; omega
  | succ f ih =>
    intro fuel₂ p e h₁ h₂
    cases fuel₂ with
    | zero => omega
    | succ g =>
      by_cases h : p = e
      · rw [walkF, walkF, if_pos h, if_pos h]
      · rw [walkF, walkF, if_neg h, if_neg h]
        have hs := walkMeasure_succ p e h
        have := ih g (walkNext p e) e (by omega) (by omega)
        rw [this]

/-- The defining recursion of the walk. -/
theorem walk_eq (p e : Position) :
    walk p e = if p = e then [p] else p :: walk (walkNext p e) e := by
  show walkF (walkMeasure p e + 1) p e = _
  rw [walkF]
  by_cases h : p = e
  · rw [if_pos h, if_pos h]
  · rw [if_neg h, if_neg h]
    have hs := walkMeasure_succ p e h
    rw [walkF_congr (walkMeasure p e) (walkMeasure (walkNext p e) e + 1)
      (walkNext p e) e (by omega) (by omega)]
    rfl

/-- `Path::walk()` as a list of visited cells. -/
def Path.walk (path : Path) : List Position := D23.walk path.start path.stop

/-- `Path::steps`: `walk().count() - 1`. -/
def Path.steps (path : Path) : Nat := path.walk.length - 1

/-- `Energy` is `u32` in the source; modelled as `Nat` (values stay far below
`2^32`). The per-step multiplier is the match inside `Path::cost`. -/
def multiplier : Amphipod → Nat
  | .Amber => 1
  | .Bronze => 10
  | .Copper => 100
  | .Desert => 1000

/-- `Path::cost`: steps times the per-step multiplier. -/
def Path.cost (path : Path) (a : Amphipod) : Nat := path.steps * multiplier a

theorem walkMeasure_self (p : Position) : walkMeasure p p = 0 := by
  cases p with
  | Hallway n => simp [walkMeasure_hh, ndist]
  | Room a d => simp [walkMeasure_rr_same, ndist]

/-- The walk visits exactly `walkMeasure p e + 1` cells. -/
theorem walk_length (p e : Position) :
    (walk p e).length = walkMeasure p e + 1 := by
  by_cases h : p = e
  · subst h
    rw [walk_eq, if_pos rfl, walkMeasure_self]
    rfl
  · rw [walk_eq, if_neg h]
    have := walkMeasure_decreases p e h
    rw [List.length_cons, walk_length (walkNext p e) e, walkMeasure_succ p e h]
termination_by walkMeasure p e
decreasing_by exact walkMeasure_decreases p e h

/-- `Path.steps` in closed form: the walk measure. -/
theorem Path.steps_eq (path : Path) :
    path.steps = walkMeasure path.start path.stop := by
  rw [Path.steps, Path.walk, walk_length]
  omega

/-! ## Burrow states

`Burrow2`/`Burrow4` are arrays of `4 * room_size` positions; the slice for
type `i` occupies indices `i*room_size ..< (i+1)*room_size`
(`SliceBackedBurrow::positions_slice`).  We model the backing array as four
per-type lists together with the room size. -/

structure Burrow where
  roomSize : Nat
  amber : List Position
  bronze : List Position
  copper : List Position
  desert : List Position
deriving DecidableEq, Repr

/-- `SliceBackedBurrow::positions_slice`. -/
def Burrow.positions_slice (s : Burrow) : Amphipod → List Position
  | .Amber => s.amber
  | .Bronze => s.bronze
  | .Copper => s.copper
  | .Desert => s.desert

/-- The backing array (`as_ref()`): concatenation of the four slices. -/
def Burrow.asList (s : Burrow) : List Position :=
  s.amber ++ s.bronze ++ s.copper ++ s.desert

/-- `BurrowState::get`: scan the backing array for the position; the index of
the first hit divided by `room_size` names the type.  With each slice of
length `room_size` this is equivalent to probing the slices in order. -/
def Burrow.get (s : Burrow) (pos : Position) : Option Amphipod :=
  if pos ∈ s.amber then some .Amber
  else if pos ∈ s.bronze then some .Bronze
  else if pos ∈ s.copper then some .Copper
  else if pos ∈ s.desert then some .Desert
  else none

/-- `BurrowState::occupied`. -/
def Burrow.occupied (s : Burrow) (pos : Position) : Bool :=
  (s.get pos).isSome

/-- `BurrowState::is_goal`: every token of every type sits in its own room. -/
def Burrow.is_goal (s : Burrow) : Bool :=
  allAmphipodTypes.all fun a =>
    (s.positions_slice a).all fun p =>
      match p with
      | .Room rm _ => rm = a
      | _ => false

/-- `BurrowState::can_enter_room`: the room must be the token's own, and every
occupied cell in it must hold a token of that same type. -/
def Burrow.can_enter_room (s : Burrow) (ap : Amphipod) (room : Room) : Bool :=
  if room = ap then
    (List.range s.roomSize).all fun d =>
      match s.get (.Room room d) with
      | some a => a = ap
      | none => true
  else false

/-- `BurrowState::is_blocked`: a path into a room the token may not enter
reports `false`; otherwise some cell strictly past the start (destination
included) is occupied. -/
def Burrow.is_blocked (s : Burrow) (a : Amphipod) (path : Path) : Bool :=
  match path.stop with
  | .Room rm _ =>
      if ¬ s.can_enter_room a rm then false
      else (path.walk.drop 1).any fun p => s.occupied p
  | _ => (path.walk.drop 1).any fun p => s.occupied p

/-- `BurrowState::min_energy`: sum over all slices; tokens already in their
own room contribute `0`, every other token the cost of the direct path to
depth `0` of its home room. -/
def Burrow.min_energy (s : Burrow) : Nat :=
  (allAmphipodTypes.map fun ap =>
    ((s.positions_slice ap).map fun p =>
      match p with
      | .Room rm _ =>
          if ap = rm then 0 else (Path.mk p (.Room ap 0)).cost ap
      | _ => (Path.mk p (.Room ap 0)).cost ap).sum).sum

/-- `struct StateTransition`: source state, token type and path. -/
structure StateTransition where
  start : Burrow
  a : Amphipod
  path : Path
deriving DecidableEq, Repr

/-- `StateTransition::cost`. -/
def StateTransition.cost (t : StateTransition) : Nat := t.path.cost t.a

/-- Replace the first occurrence of `src` by `dst`; `none` when `src` is
absent (the source's `panic!("Not a valid movement")`). -/
def replaceFirst : List Position → Position → Position → Option (List Position)
  | [], _, _ => none
  | x :: xs, src, dst =>
      if x = src then some (dst :: xs)
      else (replaceFirst xs src dst).map (x :: ·)

/-- `slice::sort` on a position slice, by the hand-written `Ord`. -/
def sortSlice (l : List Position) : List Position := l.insertionSort posLe

/-- Replace one per-type slice of a burrow. -/
def Burrow.setSlice (s : Burrow) : Amphipod → List Position → Burrow
  | .Amber, l => { s with amber := l }
  | .Bronze, l => { s with bronze := l }
  | .Copper, l => { s with copper := l }
  | .Desert, l => { s with desert := l }

/-- `BurrowState::apply_movement`: find the moved token's slice entry equal to
`path.start`, replace it by `path.end`, and re-sort the slice.  `none` models
the `panic!` when no entry matches. -/
def Burrow.apply_movement (s : Burrow) (t : StateTransition) : Option Burrow :=
  (replaceFirst (s.positions_slice t.a) t.path.start t.path.stop).map
    fun l => s.setSlice t.a (sortSlice l)

/-! ## The legal-move generator (`StateGraph::edges`) -/

/-- The hallway offsets tried for room-to-hallway moves
(`for h in [0, 1, 3, 5, 7, 9, 10]`). -/
def hallwaySpots : List Nat := [0, 1, 3, 5, 7, 9, 10]

/-- `(0..room_size).rev().find_map(...)`: the deepest open slot of `a`'s home
room. -/
def Burrow.goHomeTarget (s : Burrow) (a : Amphipod) : Option Position :=
  ((List.range s.roomSize).reverse).findSome? fun d =>
    if s.occupied (.Room a d) then none else some (.Room a d)

/-- The transitions contributed by one token of type `a` at position `p`
(the body of the `for p in state.positions_slice(a)` loop).  `none` models
the `unwrap` panic when the supposedly enterable home room has no open
slot. -/
def Burrow.tokenEdges (s : Burrow) (a : Amphipod) (roomIsClear : Bool)
    (p : Position) : Option (List StateTransition) :=
  let goHome : Option (List StateTransition) :=
    match s.goHomeTarget a with
    | none => none
    | some target =>
        let path : Path := ⟨p, target⟩
        some (if s.is_blocked a path then [] else [⟨s, a, path⟩])
  match p with
  | .Room rm _ =>
      if roomIsClear then
        if rm = a then some [] else goHome
      else
        some (hallwaySpots.filterMap fun h =>
          let path : Path := ⟨p, .Hallway h⟩
          if s.is_blocked a path then none else some ⟨s, a, path⟩)
  | .Hallway _ =>
      if roomIsClear then goHome else some []

/-- Concatenate optional transition lists, propagating a panic. -/
def optConcat : List (Option (List StateTransition)) → Option (List StateTransition)
  | [] => some []
  | none :: _ => none
  | some l :: rest =>
      match optConcat rest with
      | some r => some (l ++ r)
      | none => none

/-- `StateGraph::edges`: all transitions generated from a state, in source
order (types `A,B,C,D`, tokens in slice order). -/
def Burrow.edges (s : Burrow) : Option (List StateTransition) :=
  optConcat ((allAmphipodTypes.map fun a =>
    (s.positions_slice a).map (s.tokenEdges a (s.can_enter_room a a))).flatten)

/-! ## The documented inputs -/

/-- `_SAMPLE_INPUT`. -/
def sampleInput : List Position :=
  [ .Room .Amber 1, .Room .Desert 1
  , .Room .Amber 0, .Room .Copper 0
  , .Room .Bronze 0, .Room .Copper 1
  , .Room .Bronze 1, .Room .Desert 0 ]

/-- `From<&[Position]> for Burrow2`: the eight input positions split into
four slices of two. -/
def burrow2From (p : List Position) : Burrow :=
  { roomSize := 2
  , amber := p.take 2
  , bronze := (p.drop 2).take 2
  , copper := (p.drop 4).take 2
  , desert := (p.drop 6).take 2 }

/-- `Burrow4::from`'s depth-1-to-depth-3 rewrite. -/
def deepen : Position → Position
  | .Room rm 1 => .Room rm 3
  | p => p

/-- `From<&[Position]> for Burrow4`: original tokens keep depth 0 / move from
depth 1 to depth 3, and the eight inserted tokens take the fixed positions
written into `d[2..4]`, `d[6..8]`, `d[10..12]`, `d[14..16]`.  Out-of-range
reads default to the array initialiser `Hallway(0)`. -/
def burrow4From (p : List Position) : Burrow :=
  { roomSize := 4
  , amber :=
      [ deepen (p.getD 0 (.Hallway 0)), deepen (p.getD 1 (.Hallway 0))
      , .Room .Copper 2, .Room .Desert 1 ]
  , bronze :=
      [ deepen (p.getD 2 (.Hallway 0)), deepen (p.getD 3 (.Hallway 0))
      , .Room .Bronze 2, .Room .Copper 1 ]
  , copper :=
      [ deepen (p.getD 4 (.Hallway 0)), deepen (p.getD 5 (.Hallway 0))
      , .Room .Bronze 1, .Room .Desert 2 ]
  , desert :=
      [ deepen (p.getD 6 (.Hallway 0)), deepen (p.getD 7 (.Hallway 0))
      , .Room .Amber 1, .Room .Amber 2 ] }

/-! ## Helper lemmas about slices, sorting and `apply_movement` -/

theorem roomSize_setSlice (s : Burrow) (a : Amphipod) (l : List Position) :
    (s.setSlice a l).roomSize = s.roomSize := by
  cases a <;> rfl

theorem positions_slice_setSlice_same (s : Burrow) (a : Amphipod) (l : List Position) :
    (s.setSlice a l).positions_slice a = l := by
  cases a <;> rfl

theorem positions_slice_setSlice_other (s : Burrow) {a b : Amphipod}
    (hba : b ≠ a) (l : List Position) :
    (s.setSlice a l).positions_slice b = s.positions_slice b := by
  cases a <;> cases b <;> first
    | exact absurd rfl hba
    | rfl

theorem setSlice_setSlice (s : Burrow) (a : Amphipod) (l l' : List Position) :
    (s.setSlice a l).setSlice a l' = s.setSlice a l' := by
  cases a <;> rfl

theorem setSlice_self (s : Burrow) (a : Amphipod) :
    s.setSlice a (s.positions_slice a) = s := by
  cases a <;> rfl

theorem replaceFirst_none_iff (l : List Position) (src dst : Position) :
    replaceFirst l src dst = none ↔ src ∉ l := by
  induction l with
  | nil => simp [replaceFirst]
  | cons x xs ih =>
    by_cases hx : x = src
    · subst hx
      simp [replaceFirst]
    · simp only [replaceFirst, if_neg hx, List.mem_cons]
      constructor
      · intro h hmem
        rcases hmem with h' | h'
        · exact hx h'.symm
        · rw [Option.map_eq_none'] at h
          exact (ih.mp h) h'
      · intro h
        rw [Option.map_eq_none', ih]
        intro hmem
        exact h (Or.inr hmem)

theorem replaceFirst_some_perm {l l' : List Position} {src dst : Position}
    (h : replaceFirst l src dst = some l') : l'.Perm (dst :: l.erase src) := by
  induction l generalizing l' with
  | nil => simp [replaceFirst] at h
  | cons x xs ih =>
    simp only [replaceFirst] at h
    by_cases hx : x = src
    · rw [if_pos hx] at h
      injection h with h
      subst h
      subst hx
      rw [List.erase_cons_head]
    · rw [if_neg hx] at h
      obtain ⟨l'', h'', rfl⟩ := Option.map_eq_some'.mp h
      have hxsrc : ¬ (x == src) := by simpa using hx
      rw [List.erase_cons_tail hxsrc]
      exact ((ih h'').cons x).trans (List.Perm.swap dst x (xs.erase src))

theorem sortSlice_perm (l : List Position) : (sortSlice l).Perm l :=
  List.perm_insertionSort posLe l

theorem sortSlice_sorted (l : List Position) : (sortSlice l).Sorted posLe :=
  List.sorted_insertionSort posLe l

theorem sorted_perm_eq {l l' : List Position} (hp : l.Perm l')
    (hs : l.Sorted posLe) (hs' : l'.Sorted posLe) : l = l' :=
  List.eq_of_perm_of_sorted hp hs hs'

/-! ## Claim C4: closed form of `Path::steps` -/

/-- The mouth offsets as the spec states them: Amber 2, Bronze 4, Copper 6,
Desert 8. -/
def specMouth : Amphipod → Nat
  | .Amber => 2
  | .Bronze => 4
  | .Copper => 6
  | .Desert => 8

/-- The step count exactly as claim C4 states it, including its reading of
the Room-Room case: both depths' exit costs plus the hallway distance
between the mouths, the latter being `0` for the same room. -/
def stepsClaimed : Position → Position → Nat
  | .Hallway m, .Hallway n => ndist m n
  | .Room a d, .Hallway n => (d + 1) + ndist (specMouth a) n
  | .Hallway n, .Room a d => ndist n (specMouth a) + (d + 1)
  | .Room a d, .Room b e =>
      (d + 1) + (e + 1) + (if a = b then 0 else ndist (specMouth a) (specMouth b))

/-- The claim's formula amended in the Room-Room same-room case: the walk
moves directly inside the room, so the step count is the depth difference. -/
def stepsAmended : Position → Position → Nat
  | .Hallway m, .Hallway n => ndist m n
  | .Room a d, .Hallway n => (d + 1) + ndist (specMouth a) n
  | .Hallway n, .Room a d => ndist n (specMouth a) + (d + 1)
  | .Room a d, .Room b e =>
      if a = b then ndist d e
      else (d + 1) + (e + 1) + ndist (specMouth a) (specMouth b)

theorem hallway_pos_eq_specMouth (a : Amphipod) (d : Nat) :
    (Position.Room a d).hallway_pos = specMouth a := by
  cases a <;> rfl

/-- Claim C4, as stated, fails on a same-room pair: one step down inside the
Amber room is 1 step, while the claim's formula yields 3. -/
theorem claim_C4_counterexample :
    ¬ (Path.steps ⟨.Room .Amber 1, .Room .Amber 0⟩
        = stepsClaimed (.Room .Amber 1) (.Room .Amber 0)) := by
  decide

/-- `Path::steps` in the amended closed form (helper shared by C3 and C4). -/
theorem Path.steps_amended (path : Path) :
    path.steps = stepsAmended path.start path.stop := by
  rw [Path.steps_eq]
  rcases path with ⟨p, e⟩
  cases p with
  | Hallway n =>
    cases e with
    | Hallway m => rfl
    | Room b f =>
      simp only [walkMeasure_hr, stepsAmended, hallway_pos_eq_specMouth]
      omega
  | Room a d =>
    cases e with
    | Hallway m =>
      simp only [walkMeasure_rh, stepsAmended, hallway_pos_eq_specMouth]
      try omega
    | Room b f =>
      by_cases hab : a = b
      · subst hab
        rw [walkMeasure_rr_same]
        simp [stepsAmended]
      · rw [walkMeasure_rr_diff hab]
        simp only [stepsAmended, if_neg hab, hallway_pos_eq_specMouth]
        omega

/-- Claim C4 (amended): `Path::steps` equals the claimed closed form, with
the same-room Room-Room case giving the depth difference instead of the two
exit costs. -/
theorem claim_C4 (path : Path) :
    path.steps = stepsAmended path.start path.stop :=
  Path.steps_amended path

/-! ## Claims C10 and C9: `is_blocked` and `apply_movement` -/

/-- Claim C10: a path ending in a room the token may not enter is reported
unobstructed regardless of occupancy; in every other case `is_blocked` holds
iff some cell of the walk strictly past the source (destination included) is
occupied. -/
theorem claim_C10 (s : Burrow) (a : Amphipod) (path : Path) :
    (∀ rm d, path.stop = .Room rm d → s.can_enter_room a rm = false →
        s.is_blocked a path = false)
    ∧ ((∀ rm d, path.stop = .Room rm d → s.can_enter_room a rm = true) →
        (s.is_blocked a path = true ↔ ∃ p ∈ path.walk.drop 1, s.occupied p = true)) := by
  obtain ⟨ps, pe⟩ := path
  constructor
  · rintro rm d hstop hfalse
    have hpe : pe = .Room rm d := hstop
    subst hpe
    simp [Burrow.is_blocked, hfalse]
  · intro hok
    cases pe with
    | Hallway n =>
      simp [Burrow.is_blocked, List.any_eq_true]
    | Room rm d =>
      have hc := hok rm d rfl
      simp [Burrow.is_blocked, hc, List.any_eq_true]

/-- Claim C9: `apply_movement` panics (modelled `none`) iff no recorded
position of the moved type equals the path's start; otherwise it replaces one
occurrence of the start by the end in that type's slice and leaves every
other type's slice unchanged. -/
theorem claim_C9 (s : Burrow) (t : StateTransition) :
    (s.apply_movement t = none ↔ t.path.start ∉ s.positions_slice t.a)
    ∧ ∀ s', s.apply_movement t = some s' →
        (∀ b, b ≠ t.a → s'.positions_slice b = s.positions_slice b)
        ∧ (s'.positions_slice t.a).Perm
            (t.path.stop :: (s.positions_slice t.a).erase t.path.start) := by
  constructor
  · rw [Burrow.apply_movement, Option.map_eq_none', replaceFirst_none_iff]
  · rintro s' happ
    rw [Burrow.apply_movement] at happ
    obtain ⟨l, hl, rfl⟩ := Option.map_eq_some'.mp happ
    constructor
    · intro b hb
      rw [positions_slice_setSlice_other s hb]
    · rw [positions_slice_setSlice_same]
      exact (sortSlice_perm _).trans (replaceFirst_some_perm hl)

/-! ## Well-formed states and claim C7 (round trip) -/

/-- Well-formedness as the spec uses it: no two tokens share a location and
every per-type slice is sorted (canonical form). -/
def Burrow.WF (s : Burrow) : Prop :=
  s.asList.Nodup
    ∧ s.amber.Sorted posLe ∧ s.bronze.Sorted posLe
    ∧ s.copper.Sorted posLe ∧ s.desert.Sorted posLe

instance (s : Burrow) : Decidable s.WF := by
  unfold Burrow.WF
  infer_instance

theorem WF_sorted {s : Burrow} (h : s.WF) (a : Amphipod) :
    (s.positions_slice a).Sorted posLe := by
  cases a
  · exact h.2.1
  · exact h.2.2.1
  · exact h.2.2.2.1
  · exact h.2.2.2.2

theorem replaceFirst_mem {l : List Position} {l' : List Position} {src dst : Position}
    (h : replaceFirst l src dst = some l') : src ∈ l := by
  by_contra hmem
  rw [← replaceFirst_none_iff l src dst] at hmem
  rw [hmem] at h
  exact Option.noConfusion h

/-- Claim C7: starting from a well-formed state, applying a transition and
then the transition with the exact reverse path for the same token type
returns the original state (value equality). -/
theorem claim_C7 (s s' : Burrow) (t : StateTransition) (hwf : s.WF)
    (happly : s.apply_movement t = some s') :
    s'.apply_movement ⟨s', t.a, ⟨t.path.stop, t.path.start⟩⟩ = some s := by
  rw [Burrow.apply_movement] at happly
  obtain ⟨l, hl, rfl⟩ := Option.map_eq_some'.mp happly
  have hstart : t.path.start ∈ s.positions_slice t.a := replaceFirst_mem hl
  have hlperm : l.Perm (t.path.stop :: (s.positions_slice t.a).erase t.path.start) :=
    replaceFirst_some_perm hl
  have hstop_mem : t.path.stop ∈ sortSlice l :=
    ((sortSlice_perm l).mem_iff).mpr (hlperm.mem_iff.mpr (List.mem_cons_self _ _))
  rw [Burrow.apply_movement]
  simp only [positions_slice_setSlice_same]
  cases hrf : replaceFirst (sortSlice l) t.path.stop t.path.start with
  | none =>
    rw [replaceFirst_none_iff] at hrf
    exact absurd hstop_mem hrf
  | some l₂ =>
    simp only [Option.map_some']
    have hperm₂ : l₂.Perm (t.path.start :: (sortSlice l).erase t.path.stop) :=
      replaceFirst_some_perm hrf
    have herase : ((sortSlice l).erase t.path.stop).Perm
        ((s.positions_slice t.a).erase t.path.start) := by
      have h1 : (sortSlice l).Perm (t.path.stop :: (s.positions_slice t.a).erase t.path.start) :=
        (sortSlice_perm l).trans hlperm
      have h2 := h1.erase t.path.stop
      rw [List.erase_cons_head] at h2
      exact h2
    have hback : l₂.Perm (s.positions_slice t.a) := by
      refine hperm₂.trans ?_
      refine (herase.cons t.path.start).trans ?_
      exact (List.perm_cons_erase hstart).symm
    have hfinal : sortSlice l₂ = s.positions_slice t.a :=
      sorted_perm_eq ((sortSlice_perm l₂).trans hback)
        (sortSlice_sorted l₂) (WF_sorted hwf t.a)
    rw [setSlice_setSlice, hfinal, setSlice_self]

/-! ## Analysis of the move generator -/

theorem optConcat_mem {os : List (Option (List StateTransition))}
    {ts : List StateTransition} (h : optConcat os = some ts)
    {t : StateTransition} (ht : t ∈ ts) :
    ∃ l, some l ∈ os ∧ t ∈ l := by
  induction os generalizing ts with
  | nil =>
    rw [optConcat] at h
    injection h with h
    subst h
    cases ht
  | cons o rest ih =>
    cases o with
    | none => rw [optConcat] at h; exact Option.noConfusion h
    | some l =>
      rw [optConcat] at h
      cases hrec : optConcat rest with
      | none => rw [hrec] at h; exact Option.noConfusion h
      | some r =>
        rw [hrec] at h
        injection h with h
        subst h
        rcases List.mem_append.mp ht with h1 | h2
        · exact ⟨l, List.mem_cons_self _ _, h1⟩
        · obtain ⟨l', hmem, htl⟩ := ih hrec h2
          exact ⟨l', List.mem_cons_of_mem _ hmem, htl⟩

theorem edges_mem {s : Burrow} {ts : List StateTransition} {t : StateTransition}
    (h : s.edges = some ts) (ht : t ∈ ts) :
    ∃ a p, p ∈ s.positions_slice a ∧
      ∃ l, s.tokenEdges a (s.can_enter_room a a) p = some l ∧ t ∈ l := by
  rw [Burrow.edges] at h
  obtain ⟨l, hmem, htl⟩ := optConcat_mem h ht
  obtain ⟨inner, hinner, ho⟩ := List.mem_flatten.mp hmem
  obtain ⟨a, _, rfl⟩ := List.mem_map.mp hinner
  obtain ⟨p, hp, heq⟩ := List.mem_map.mp ho
  exact ⟨a, p, hp, l, heq, htl⟩

theorem goHomeTarget_spec {s : Burrow} {a : Amphipod} {target : Position}
    (h : s.goHomeTarget a = some target) :
    ∃ d, target = .Room a d ∧ d < s.roomSize ∧ s.occupied (.Room a d) = false ∧
      ∀ d', d < d' → d' < s.roomSize → s.occupied (.Room a d') = true := by
  rw [Burrow.goHomeTarget] at h
  suffices haux : ∀ (n : Nat),
      (((List.range n).reverse).findSome? fun d =>
        if s.occupied (.Room a d) then none else some (.Room a d)) = some target →
      ∃ d, target = .Room a d ∧ d < n ∧ s.occupied (.Room a d) = false ∧
        ∀ d', d < d' → d' < n → s.occupied (.Room a d') = true from
    haux s.roomSize h
  intro n
  induction n with
  | zero =>
    intro h'
    rw [List.range_zero, List.reverse_nil, List.findSome?_nil] at h'
    exact Option.noConfusion h'
  | succ m ih =>
    intro h'
    rw [List.range_succ, List.reverse_append, List.reverse_singleton,
      List.singleton_append, List.findSome?_cons] at h'
    cases hocc : s.occupied (.Room a m) with
    | true =>
      rw [hocc, if_pos rfl] at h'
      obtain ⟨d, rfl, hd, hunocc, habove⟩ := ih h'
      refine ⟨d, rfl, by omega, hunocc, ?_⟩
      intro d' hdd' hd'
      by_cases hdm : d' = m
      · rw [hdm]; exact hocc
      · exact habove d' hdd' (by omega)
    | false =>
      rw [hocc, if_neg (by simp)] at h'
      injection h' with h'
      exact ⟨m, h'.symm, by omega, hocc, fun d' h1 h2 => absurd h1 (by omega)⟩

/-- What membership in one token's generated transitions means: the
transition records the source state, the type and the token's position as
path start, its path is unobstructed, and it is either a homecoming move
(room clear, token not already in its home room, destination the deepest
open home slot) or a room-to-hallway move (room not clear, token in a room,
destination one of the seven legal hallway offsets). -/
theorem tokenEdges_mem {s : Burrow} {a : Amphipod} {clear : Bool} {p : Position}
    {l : List StateTransition} {t : StateTransition}
    (hl : s.tokenEdges a clear p = some l) (ht : t ∈ l) :
    t.start = s ∧ t.a = a ∧ t.path.start = p ∧ s.is_blocked a t.path = false ∧
      ((clear = true ∧ (∀ d, p ≠ .Room a d) ∧ s.goHomeTarget a = some t.path.stop)
        ∨ (clear = false ∧ (∃ rm d, p = .Room rm d) ∧
            ∃ n ∈ hallwaySpots, t.path.stop = .Hallway n)) := by
  cases p with
  | Hallway np =>
    cases clear with
    | false =>
      simp only [Burrow.tokenEdges] at hl
      rw [if_neg (by simp)] at hl
      injection hl with hl
      subst hl
      cases ht
    | true =>
      simp only [Burrow.tokenEdges] at hl
      rw [if_pos trivial] at hl
      cases hg : s.goHomeTarget a with
      | none => rw [hg] at hl; exact Option.noConfusion hl
      | some target =>
        rw [hg] at hl
        injection hl with hl
        subst hl
        cases hb : s.is_blocked a ⟨.Hallway np, target⟩ with
        | true => rw [hb, if_pos rfl] at ht; cases ht
        | false =>
          rw [hb, if_neg (by simp)] at ht
          rcases List.mem_singleton.mp ht with rfl
          refine ⟨rfl, rfl, rfl, hb, Or.inl ⟨rfl, fun d h => Position.noConfusion h, ?_⟩⟩
          rfl
  | Room rm dp =>
    cases clear with
    | false =>
      simp only [Burrow.tokenEdges] at hl
      rw [if_neg (by simp)] at hl
      injection hl with hl
      subst hl
      obtain ⟨n, hn, hf⟩ := List.mem_filterMap.mp ht
      cases hb : s.is_blocked a ⟨.Room rm dp, .Hallway n⟩ with
      | true => rw [hb, if_pos rfl] at hf; exact Option.noConfusion hf
      | false =>
        rw [hb, if_neg (by simp)] at hf
        injection hf with hf
        subst hf
        exact ⟨rfl, rfl, rfl, hb, Or.inr ⟨rfl, ⟨rm, dp, rfl⟩, n, hn, rfl⟩⟩
    | true =>
      simp only [Burrow.tokenEdges] at hl
      rw [if_pos trivial] at hl
      by_cases hrm : rm = a
      · rw [if_pos hrm] at hl
        injection hl with hl
        subst hl
        cases ht
      · rw [if_neg hrm] at hl
        cases hg : s.goHomeTarget a with
        | none => rw [hg] at hl; exact Option.noConfusion hl
        | some target =>
          rw [hg] at hl
          injection hl with hl
          subst hl
          cases hb : s.is_blocked a ⟨.Room rm dp, target⟩ with
          | true => rw [hb, if_pos rfl] at ht; cases ht
          | false =>
            rw [hb, if_neg (by simp)] at ht
            rcases List.mem_singleton.mp ht with rfl
            refine ⟨rfl, rfl, rfl, hb, Or.inl ⟨rfl, ?_, ?_⟩⟩
            · intro d h
              injection h with h _
              exact hrm h
            · rfl

theorem occupied_iff_mem {s : Burrow} {p : Position} :
    s.occupied p = true ↔ p ∈ s.asList := by
  rw [Burrow.occupied, Burrow.get, Burrow.asList]
  by_cases h1 : p ∈ s.amber <;> by_cases h2 : p ∈ s.bronze <;>
    by_cases h3 : p ∈ s.copper <;> by_cases h4 : p ∈ s.desert <;>
    simp [h1, h2, h3, h4]

theorem mem_walk_stop (p e : Position) : e ∈ walk p e := by
  by_cases h : p = e
  · subst h
    rw [walk_eq, if_pos rfl]
    exact List.mem_singleton.mpr rfl
  · rw [walk_eq, if_neg h]
    exact List.mem_cons_of_mem _ (mem_walk_stop (walkNext p e) e)
termination_by walkMeasure p e
decreasing_by exact walkMeasure_decreases p e h

theorem stop_mem_walk_drop {p e : Position} (h : p ≠ e) :
    e ∈ (walk p e).drop 1 := by
  rw [walk_eq, if_neg h]
  exact mem_walk_stop (walkNext p e) e

/-- An unobstructed path (into a room the token may enter, or to the
hallway) has every cell strictly past its start unoccupied. -/
theorem is_blocked_false_all {s : Burrow} {a : Amphipod} {path : Path}
    (hb : s.is_blocked a path = false)
    (hsafe : ∀ rm d, path.stop = .Room rm d → s.can_enter_room a rm = true) :
    ∀ q ∈ path.walk.drop 1, s.occupied q = false := by
  have hb' : (path.walk.drop 1).any (fun p => s.occupied p) = false := by
    rw [Burrow.is_blocked] at hb
    cases hstop : path.stop with
    | Hallway n => rw [hstop] at hb; exact hb
    | Room rm d =>
      simp only [hstop] at hb
      rw [if_neg (not_not_intro (hsafe rm d hstop))] at hb
      exact hb
  rw [List.any_eq_false] at hb'
  intro q hq
  exact Bool.eq_false_iff.mpr (hb' q hq)

/-- The facts every generator-emitted transition satisfies. -/
theorem edge_facts {s : Burrow} {ts : List StateTransition} {t : StateTransition}
    (h : s.edges = some ts) (ht : t ∈ ts) :
    t.start = s ∧ t.path.start ∈ s.positions_slice t.a ∧
      t.path.start ≠ t.path.stop ∧
      s.occupied t.path.stop = false ∧
      (∀ q ∈ t.path.walk.drop 1, s.occupied q = false) := by
  obtain ⟨a, p, hp, l, hl, htl⟩ := edges_mem h ht
  obtain ⟨hstart, hta, hpstart, hblocked, hcase⟩ := tokenEdges_mem hl htl
  subst hta
  subst hpstart
  rcases hcase with ⟨hclear, hnothome, hgo⟩ | ⟨-, ⟨rm, dp, hroom⟩, n, -, hstopH⟩
  · obtain ⟨d, hstop, hd, hunocc, -⟩ := goHomeTarget_spec hgo
    have hne : t.path.start ≠ t.path.stop := by
      rw [hstop]; exact hnothome d
    have hsafe : ∀ rm d', t.path.stop = .Room rm d' → s.can_enter_room t.a rm = true := by
      intro rm d' hstop'
      rw [hstop] at hstop'
      injection hstop' with hrm _
      rw [← hrm]
      exact hclear
    refine ⟨hstart, hp, hne, ?_, is_blocked_false_all hblocked hsafe⟩
    rw [hstop]
    exact hunocc
  · have hne : t.path.start ≠ t.path.stop := by
      rw [hroom, hstopH]
      exact fun hh => Position.noConfusion hh
    have hsafe : ∀ rm d', t.path.stop = .Room rm d' → s.can_enter_room t.a rm = true := by
      intro rm d' hstop'
      rw [hstopH] at hstop'
      exact Position.noConfusion hstop'
    have hall := is_blocked_false_all hblocked hsafe
    exact ⟨hstart, hp, hne, hall t.path.stop (stop_mem_walk_drop hne), hall⟩

/-! ## Claims C5 and C6: legality of generated moves -/

/-- Claim C5: every emitted transition is legal: never a same-room
Room-to-Room move, every cell strictly past the source along the walk
(destination included) is unoccupied, and a hallway destination is one of
the offsets 0, 1, 3, 5, 7, 9, 10. -/
theorem claim_C5 (s : Burrow) (ts : List StateTransition) (t : StateTransition)
    (h : s.edges = some ts) (ht : t ∈ ts) :
    (∀ rm d rm' d', t.path.start = .Room rm d → t.path.stop = .Room rm' d' →
        rm ≠ rm')
    ∧ (∀ q ∈ t.path.walk.drop 1, s.occupied q = false)
    ∧ s.occupied t.path.stop = false
    ∧ (∀ n, t.path.stop = .Hallway n → n ∈ hallwaySpots) := by
  obtain ⟨a, p, hp, l, hl, htl⟩ := edges_mem h ht
  obtain ⟨hstart, hta, hpstart, hblocked, hcase⟩ := tokenEdges_mem hl htl
  obtain ⟨-, -, -, hunocc, hall⟩ := edge_facts h ht
  refine ⟨?_, hall, hunocc, ?_⟩
  · rintro rm d rm' d' hs hstop rfl
    subst hta
    subst hpstart
    rcases hcase with ⟨-, hnothome, hgo⟩ | ⟨-, -, n, -, hstopH⟩
    · obtain ⟨dd, hstopEq, -, -, -⟩ := goHomeTarget_spec hgo
      rw [hstop] at hstopEq
      injection hstopEq with h1 _
      subst h1
      exact hnothome d hs
    · rw [hstopH] at hstop
      exact Position.noConfusion hstop
  · intro n hstop
    subst hta
    subst hpstart
    rcases hcase with ⟨-, -, hgo⟩ | ⟨-, -, m, hm, hstopH⟩
    · obtain ⟨dd, hstopEq, -, -, -⟩ := goHomeTarget_spec hgo
      rw [hstop] at hstopEq
      exact Position.noConfusion hstopEq
    · rw [hstopH] at hstop
      injection hstop with h1
      rw [← h1]
      exact hm

/-- Claim C6: homecoming moves (destination inside a room) happen only for
the moved token's own room with `can_enter_room` true, and the destination
is exactly the deepest open slot: it is unoccupied and every deeper slot is
occupied, so no shallower slot is ever proposed. -/
theorem claim_C6 (s : Burrow) (ts : List StateTransition) (t : StateTransition)
    (h : s.edges = some ts) (ht : t ∈ ts) (rm : Room) (d : Nat)
    (hstop : t.path.stop = .Room rm d) :
    rm = t.a ∧ s.can_enter_room t.a t.a = true ∧ d < s.roomSize ∧
      s.occupied (.Room t.a d) = false ∧
      ∀ d', d < d' → d' < s.roomSize → s.occupied (.Room t.a d') = true := by
  obtain ⟨a, p, hp, l, hl, htl⟩ := edges_mem h ht
  obtain ⟨hstart, hta, hpstart, hblocked, hcase⟩ := tokenEdges_mem hl htl
  subst hta
  subst hpstart
  rcases hcase with ⟨hclear, -, hgo⟩ | ⟨-, -, n, -, hstopH⟩
  · obtain ⟨dd, hstopEq, hd, hunocc, habove⟩ := goHomeTarget_spec hgo
    rw [hstop] at hstopEq
    injection hstopEq with h1 h2
    subst h1
    subst h2
    exact ⟨rfl, hclear, hd, hunocc, habove⟩
  · rw [hstopH] at hstop
    exact Position.noConfusion hstop

/-! ## Claim C8: preservation of the state invariants -/

/-- One search step: a generator-emitted transition applied to the state. -/
def Step (s s' : Burrow) : Prop :=
  ∃ ts t, s.edges = some ts ∧ t ∈ ts ∧ s.apply_movement t = some s'

/-- The other three slices, in backing-array order. -/
def Burrow.restOf (s : Burrow) : Amphipod → List Position
  | .Amber => s.bronze ++ s.copper ++ s.desert
  | .Bronze => s.amber ++ s.copper ++ s.desert
  | .Copper => s.amber ++ s.bronze ++ s.desert
  | .Desert => s.amber ++ s.bronze ++ s.copper

theorem asList_perm_restOf (s : Burrow) (a : Amphipod) :
    s.asList.Perm (s.positions_slice a ++ s.restOf a) := by
  cases a with
  | Amber =>
    simp only [Burrow.asList, Burrow.restOf, Burrow.positions_slice]
    simp [List.append_assoc]
  | Bronze =>
    simp only [Burrow.asList, Burrow.restOf, Burrow.positions_slice]
    have h1 : (s.amber ++ s.bronze ++ s.copper ++ s.desert).Perm
        ((s.bronze ++ s.amber) ++ s.copper ++ s.desert) :=
      ((List.perm_append_comm).append_right _).append_right _
    have h2 : (s.bronze ++ s.amber) ++ s.copper ++ s.desert
        = s.bronze ++ (s.amber ++ s.copper ++ s.desert) := by
      simp [List.append_assoc]
    rw [← h2]
    exact h1
  | Copper =>
    simp only [Burrow.asList, Burrow.restOf, Burrow.positions_slice]
    have h1 : (s.amber ++ s.bronze ++ s.copper ++ s.desert).Perm
        ((s.copper ++ (s.amber ++ s.bronze)) ++ s.desert) :=
      (List.perm_append_comm).append_right _
    have h2 : (s.copper ++ (s.amber ++ s.bronze)) ++ s.desert
        = s.copper ++ (s.amber ++ s.bronze ++ s.desert) := by
      simp [List.append_assoc]
    rw [← h2]
    exact h1
  | Desert =>
    simp only [Burrow.asList, Burrow.restOf, Burrow.positions_slice]
    exact List.perm_append_comm

theorem restOf_setSlice (s : Burrow) (a : Amphipod) (l : List Position) :
    (s.setSlice a l).restOf a = s.restOf a := by
  cases a <;> rfl

/-- Replacing, inside a duplicate-free list, the head block by a permutation
of `stop :: block.erase start` keeps it duplicate-free, provided `stop` was
absent overall. -/
theorem nodup_head_replace {xs rest ys : List Position} {start stop : Position}
    (hn : (xs ++ rest).Nodup) (hys : ys.Perm (stop :: xs.erase start))
    (hstop : stop ∉ xs ++ rest) : (ys ++ rest).Nodup := by
  have hperm : (ys ++ rest).Perm (stop :: (xs.erase start ++ rest)) :=
    hys.append_right rest
  have hsub : (xs.erase start ++ rest).Sublist (xs ++ rest) :=
    (List.erase_sublist start xs).append_right rest
  refine hperm.nodup_iff.mpr (List.nodup_cons.mpr ⟨?_, hn.sublist hsub⟩)
  intro hmem
  exact hstop (hsub.subset hmem)

theorem WF_of (s : Burrow) (hn : s.asList.Nodup)
    (hs : ∀ a, (s.positions_slice a).Sorted posLe) : s.WF :=
  ⟨hn, hs .Amber, hs .Bronze, hs .Copper, hs .Desert⟩

/-- One generator step preserves well-formedness. -/
theorem step_WF {s s' : Burrow} (hwf : s.WF) (hst : Step s s') : s'.WF := by
  obtain ⟨ts, t, hts, ht, happ⟩ := hst
  obtain ⟨-, hstart_mem, -, hstop_unocc, -⟩ := edge_facts hts ht
  have hstop_notin : t.path.stop ∉ s.asList := by
    intro hmem
    rw [occupied_iff_mem.mpr hmem] at hstop_unocc
    exact Bool.noConfusion hstop_unocc
  rw [Burrow.apply_movement] at happ
  obtain ⟨l, hl, rfl⟩ := Option.map_eq_some'.mp happ
  have hperm_l : (sortSlice l).Perm
      (t.path.stop :: (s.positions_slice t.a).erase t.path.start) :=
    (sortSlice_perm l).trans (replaceFirst_some_perm hl)
  refine WF_of _ ?_ ?_
  · have h1 := asList_perm_restOf s t.a
    have h2 : (s.setSlice t.a (sortSlice l)).asList.Perm
        (sortSlice l ++ s.restOf t.a) := by
      have h := asList_perm_restOf (s.setSlice t.a (sortSlice l)) t.a
      rwa [positions_slice_setSlice_same, restOf_setSlice] at h
    refine h2.nodup_iff.mpr ?_
    refine nodup_head_replace (h1.nodup_iff.mp hwf.1) hperm_l ?_
    intro hmem
    exact hstop_notin (h1.symm.subset hmem)
  · intro b
    by_cases hb : b = t.a
    · subst hb
      rw [positions_slice_setSlice_same]
      exact sortSlice_sorted l
    · rw [positions_slice_setSlice_other s hb]
      exact WF_sorted hwf b

/-- Claim C8: every state reachable from a well-formed initial state through
generator-emitted transitions keeps the invariants: all token locations are
pairwise distinct and every per-type slice is sorted. -/
theorem claim_C8 (s₀ s : Burrow) (h₀ : s₀.WF)
    (h : Relation.ReflTransGen Step s₀ s) : s.WF := by
  induction h with
  | refl => exact h₀
  | tail _ hstep ih => exact step_WF ih hstep

/-! ## Claim C2: the heuristic is admissible and consistent -/

/-- One token's contribution to `min_energy`. -/
def homeTerm (ap : Amphipod) : Position → Nat
  | .Room rm d => if ap = rm then 0 else (Path.mk (.Room rm d) (.Room ap 0)).cost ap
  | .Hallway n => (Path.mk (.Hallway n) (.Room ap 0)).cost ap

/-- One type's contribution to `min_energy`. -/
def typeSum (s : Burrow) (a : Amphipod) : Nat :=
  ((s.positions_slice a).map (homeTerm a)).sum

theorem min_energy_eq (s : Burrow) :
    s.min_energy
      = typeSum s .Amber + typeSum s .Bronze + typeSum s .Copper + typeSum s .Desert := by
  rw [Burrow.min_energy]
  simp only [allAmphipodTypes, List.map_cons, List.map_nil, List.sum_cons,
    List.sum_nil]
  have h : ∀ ap, ((s.positions_slice ap).map fun p =>
      match p with
      | Position.Room rm _ =>
          if ap = rm then 0 else (Path.mk p (.Room ap 0)).cost ap
      | _ => (Path.mk p (.Room ap 0)).cost ap)
      = (s.positions_slice ap).map (homeTerm ap) := by
    intro ap
    apply List.map_congr_left
    intro p _
    cases p <;> rfl
  rw [h, h, h, h]
  simp only [typeSum]
  omega

theorem typeSum_other {s : Burrow} {a b : Amphipod} (hb : b ≠ a) (l : List Position) :
    typeSum (s.setSlice a l) b = typeSum s b := by
  rw [typeSum, positions_slice_setSlice_other s hb, typeSum]

/-- Applying a transition moves exactly one `homeTerm` contribution: the
start's term is exchanged for the stop's. -/
theorem min_energy_apply {s : Burrow} {t : StateTransition} {s' : Burrow}
    (happ : s.apply_movement t = some s') :
    s'.min_energy + homeTerm t.a t.path.start
      = s.min_energy + homeTerm t.a t.path.stop := by
  obtain ⟨tstart, ta, tpath⟩ := t
  rw [Burrow.apply_movement] at happ
  obtain ⟨l, hl, rfl⟩ := Option.map_eq_some'.mp happ
  simp only at hl ⊢
  have hstart : tpath.start ∈ s.positions_slice ta := replaceFirst_mem hl
  have hpl : (sortSlice l).Perm (tpath.stop :: (s.positions_slice ta).erase tpath.start) :=
    (sortSlice_perm l).trans (replaceFirst_some_perm hl)
  have hsum1 : typeSum (s.setSlice ta (sortSlice l)) ta
      = homeTerm ta tpath.stop
        + (((s.positions_slice ta).erase tpath.start).map (homeTerm ta)).sum := by
    rw [typeSum, positions_slice_setSlice_same, (hpl.map (homeTerm ta)).sum_eq,
      List.map_cons, List.sum_cons]
  have hsum2 : typeSum s ta
      = homeTerm ta tpath.start
        + (((s.positions_slice ta).erase tpath.start).map (homeTerm ta)).sum := by
    rw [typeSum, ((List.perm_cons_erase hstart).map (homeTerm ta)).sum_eq,
      List.map_cons, List.sum_cons]
  rw [min_energy_eq, min_energy_eq]
  cases ta with
  | Amber =>
    have h1 : typeSum (s.setSlice .Amber (sortSlice l)) .Bronze = typeSum s .Bronze :=
      typeSum_other (by decide) _
    have h2 : typeSum (s.setSlice .Amber (sortSlice l)) .Copper = typeSum s .Copper :=
      typeSum_other (by decide) _
    have h3 : typeSum (s.setSlice .Amber (sortSlice l)) .Desert = typeSum s .Desert :=
      typeSum_other (by decide) _
    omega
  | Bronze =>
    have h1 : typeSum (s.setSlice .Bronze (sortSlice l)) .Amber = typeSum s .Amber :=
      typeSum_other (by decide) _
    have h2 : typeSum (s.setSlice .Bronze (sortSlice l)) .Copper = typeSum s .Copper :=
      typeSum_other (by decide) _
    have h3 : typeSum (s.setSlice .Bronze (sortSlice l)) .Desert = typeSum s .Desert :=
      typeSum_other (by decide) _
    omega
  | Copper =>
    have h1 : typeSum (s.setSlice .Copper (sortSlice l)) .Amber = typeSum s .Amber :=
      typeSum_other (by decide) _
    have h2 : typeSum (s.setSlice .Copper (sortSlice l)) .Bronze = typeSum s .Bronze :=
      typeSum_other (by decide) _
    have h3 : typeSum (s.setSlice .Copper (sortSlice l)) .Desert = typeSum s .Desert :=
      typeSum_other (by decide) _
    omega
  | Desert =>
    have h1 : typeSum (s.setSlice .Desert (sortSlice l)) .Amber = typeSum s .Amber :=
      typeSum_other (by decide) _
    have h2 : typeSum (s.setSlice .Desert (sortSlice l)) .Bronze = typeSum s .Bronze :=
      typeSum_other (by decide) _
    have h3 : typeSum (s.setSlice .Desert (sortSlice l)) .Copper = typeSum s .Copper :=
      typeSum_other (by decide) _
    omega

theorem homeTerm_room_self (a : Amphipod) (d : Nat) :
    homeTerm a (.Room a d) = 0 := by
  simp [homeTerm]

/-- Closed form of a hallway token's heuristic term. -/
theorem homeTerm_hallway (ap : Amphipod) (n : Nat) :
    homeTerm ap (.Hallway n)
      = (ndist n (Position.Room ap 0).hallway_pos + 1 + 0) * multiplier ap := by
  simp only [homeTerm, Path.cost, Path.steps_eq, walkMeasure_hr]

/-- Closed form of a foreign-room token's heuristic term. -/
theorem homeTerm_room_other {ap rm : Amphipod} (h : ap ≠ rm) (d : Nat) :
    homeTerm ap (.Room rm d)
      = (d + 1
          + ndist (Position.Room rm 0).hallway_pos (Position.Room ap 0).hallway_pos
          + 1 + 0) * multiplier ap := by
  simp only [homeTerm, if_neg h, Path.cost, Path.steps_eq,
    walkMeasure_rr_diff (fun hh => h hh.symm)]

/-- The key inequality behind consistency: for an emitted transition, the
start's heuristic term is at most the move's cost plus the stop's term. -/
theorem homeTerm_key {s : Burrow} {ts : List StateTransition} {t : StateTransition}
    (h : s.edges = some ts) (ht : t ∈ ts) :
    homeTerm t.a t.path.start ≤ t.cost + homeTerm t.a t.path.stop := by
  obtain ⟨a, p, hp, l, hl, htl⟩ := edges_mem h ht
  obtain ⟨-, hta, hpstart, -, hcase⟩ := tokenEdges_mem hl htl
  subst hta
  subst hpstart
  simp only [StateTransition.cost, Path.cost, Path.steps_eq]
  rcases hcase with ⟨-, hnothome, hgo⟩ | ⟨-, ⟨rm, dp, hroom⟩, n, -, hstopH⟩
  · obtain ⟨d, hstop, -, -, -⟩ := goHomeTarget_spec hgo
    rw [hstop, homeTerm_room_self]
    cases hps : t.path.start with
    | Hallway m =>
      rw [homeTerm_hallway, walkMeasure_hr]
      have hsteps : ndist m (Position.Room t.a 0).hallway_pos + 1 + 0
          ≤ ndist m (Position.Room t.a 0).hallway_pos + 1 + d := by omega
      have hmul := Nat.mul_le_mul_right (multiplier t.a) hsteps
      omega
    | Room rm dp =>
      have hrm : rm ≠ t.a := fun hh => hnothome dp (by rw [hps, hh])
      rw [homeTerm_room_other (fun hh => hrm hh.symm), walkMeasure_rr_diff hrm]
      have hsteps : dp + 1
            + ndist (Position.Room rm 0).hallway_pos (Position.Room t.a 0).hallway_pos
            + 1 + 0
          ≤ dp + 1
            + ndist (Position.Room rm 0).hallway_pos (Position.Room t.a 0).hallway_pos
            + 1 + d := by omega
      have hmul := Nat.mul_le_mul_right (multiplier t.a) hsteps
      omega
  · rw [hroom, hstopH, walkMeasure_rh, homeTerm_hallway]
    by_cases hrma : t.a = rm
    · rw [homeTerm, if_pos hrma]
      omega
    · rw [homeTerm_room_other hrma]
      have hsteps : dp + 1
            + ndist (Position.Room rm 0).hallway_pos (Position.Room t.a 0).hallway_pos
            + 1 + 0
          ≤ (dp + 1 + ndist (Position.Room rm 0).hallway_pos n)
            + (ndist n (Position.Room t.a 0).hallway_pos + 1 + 0) := by
        simp only [ndist]
        omega
      have hmul := Nat.mul_le_mul_right (multiplier t.a) hsteps
      have hsplit : ((dp + 1 + ndist (Position.Room rm 0).hallway_pos n)
            + (ndist n (Position.Room t.a 0).hallway_pos + 1 + 0)) * multiplier t.a
          = (dp + 1 + ndist (Position.Room rm 0).hallway_pos n) * multiplier t.a
            + (ndist n (Position.Room t.a 0).hallway_pos + 1 + 0) * multiplier t.a :=
        Nat.add_mul _ _ _
      omega

theorem min_energy_goal_zero {s : Burrow} (h : s.is_goal = true) :
    s.min_energy = 0 := by
  rw [min_energy_eq]
  have hall : ∀ a : Amphipod, typeSum s a = 0 := by
    intro a
    rw [Burrow.is_goal] at h
    have ha := List.all_eq_true.mp h a (by cases a <;> decide)
    rw [List.all_eq_true] at ha
    rw [typeSum]
    apply List.sum_eq_zero
    intro x hx
    obtain ⟨p, hpmem, rfl⟩ := List.mem_map.mp hx
    have hgoal := ha p hpmem
    cases p with
    | Hallway n => exact absurd hgoal (by simp)
    | Room rm d =>
      have : rm = a := by simpa using hgoal
      subst this
      exact homeTerm_room_self rm d
  rw [hall .Amber, hall .Bronze, hall .Copper, hall .Desert]

/-- Consistency in ≤ form, used both by claim C2 and by the optimality
certificate for claim C1. -/
theorem min_energy_consistent {s : Burrow} {ts : List StateTransition}
    {t : StateTransition} {s' : Burrow} (h : s.edges = some ts) (ht : t ∈ ts)
    (happ : s.apply_movement t = some s') :
    s.min_energy ≤ t.cost + s'.min_energy := by
  have heq := min_energy_apply happ
  have hkey := homeTerm_key h ht
  omega

/-- Claim C2: the heuristic is admissible and consistent: `min_energy` of
every goal state is `0`, and across any emitted transition it decreases by
at most the transition's cost. -/
theorem claim_C2 :
    (∀ s : Burrow, s.is_goal = true → s.min_energy = 0)
    ∧ ∀ (s : Burrow) (ts : List StateTransition) (t : StateTransition) (s' : Burrow),
        s.edges = some ts → t ∈ ts → s.apply_movement t = some s' →
        s.min_energy - s'.min_energy ≤ t.cost := by
  refine ⟨fun s h => min_energy_goal_zero h, ?_⟩
  intro s ts t s' h ht happ
  have := min_energy_consistent h ht happ
  omega

/-! ## Concrete witness scenario: one amber token in the hallway, everyone
else settled; the only legal move is its homecoming. -/

def wState : Burrow :=
  { roomSize := 2
  , amber := [.Room .Amber 1, .Hallway 0]
  , bronze := [.Room .Bronze 1, .Room .Bronze 0]
  , copper := [.Room .Copper 1, .Room .Copper 0]
  , desert := [.Room .Desert 1, .Room .Desert 0] }

def wTrans : StateTransition :=
  { start := wState, a := .Amber, path := ⟨.Hallway 0, .Room .Amber 0⟩ }

def wApplied : Burrow :=
  { roomSize := 2
  , amber := [.Room .Amber 1, .Room .Amber 0]
  , bronze := [.Room .Bronze 1, .Room .Bronze 0]
  , copper := [.Room .Copper 1, .Room .Copper 0]
  , desert := [.Room .Desert 1, .Room .Desert 0] }

theorem claim_C5_witness :
    (∀ rm d rm' d', wTrans.path.start = .Room rm d →
        wTrans.path.stop = .Room rm' d' → rm ≠ rm')
    ∧ (∀ q ∈ wTrans.path.walk.drop 1, wState.occupied q = false)
    ∧ wState.occupied wTrans.path.stop = false
    ∧ (∀ n, wTrans.path.stop = .Hallway n → n ∈ hallwaySpots) :=
  claim_C5 wState [wTrans] wTrans (by decide) (by decide)

theorem claim_C6_witness :
    Amphipod.Amber = wTrans.a ∧ wState.can_enter_room wTrans.a wTrans.a = true
    ∧ 0 < wState.roomSize ∧ wState.occupied (.Room wTrans.a 0) = false
    ∧ ∀ d', 0 < d' → d' < wState.roomSize →
        wState.occupied (.Room wTrans.a d') = true :=
  claim_C6 wState [wTrans] wTrans (by decide) (by decide) .Amber 0 (by decide)

theorem claim_C7_witness :
    wApplied.apply_movement
        ⟨wApplied, wTrans.a, ⟨wTrans.path.stop, wTrans.path.start⟩⟩ = some wState :=
  claim_C7 wState wApplied wTrans (by decide) (by decide)

theorem claim_C8_witness : wApplied.WF :=
  claim_C8 wState wApplied (by decide)
    (Relation.ReflTransGen.tail Relation.ReflTransGen.refl
      ⟨[wTrans], wTrans, by decide, by decide, by decide⟩)

/-! ## Claim C3: `min_energy` against the spec's reference heuristic -/

/-- The spec's reference heuristic, phrased as claim C3 states it: per home
room, the open depth-slots are assigned to the misplaced tokens of that type,
by path cost, taking the cheaper of the two depth-assignments when two
tokens of a kind are both away from home. -/
def specHomeCost (s : Burrow) (a : Amphipod) : Nat :=
  let c : Position → Nat → Nat := fun p d => (Path.mk p (.Room a d)).cost a
  let misplaced := (s.positions_slice a).filter fun p =>
    match p with
    | .Room rm _ => decide (rm ≠ a)
    | _ => true
  let opens := (List.range s.roomSize).filter fun d => ! s.occupied (.Room a d)
  match misplaced, opens with
  | [], _ => 0
  | [p], ds => ((ds.map (c p)).min?).getD 0
  | [p, q], [d1, d2] => min (c p d1 + c q d2) (c p d2 + c q d1)
  | _, _ => 0

/-- The spec's reference heuristic summed over the four types. -/
def minEnergySpec (s : Burrow) : Nat :=
  (allAmphipodTypes.map (specHomeCost s)).sum

/-- A well-formed 2-deep state separating `min_energy` from the reference
heuristic: one amber token rests at depth 0 of its room, the other stands at
hallway offset 0; everyone else is settled.  The only open amber slot is
depth 1 (cost 4) while `min_energy` charges the direct path to depth 0
(cost 3). -/
def cexState : Burrow :=
  { roomSize := 2
  , amber := [.Room .Amber 0, .Hallway 0]
  , bronze := [.Room .Bronze 1, .Room .Bronze 0]
  , copper := [.Room .Copper 1, .Room .Copper 0]
  , desert := [.Room .Desert 1, .Room .Desert 0] }

/-- Claim C3, as stated, fails: on `cexState` the code's `min_energy` is 3
but the spec's open-slot assignment gives 4. -/
theorem claim_C3_counterexample :
    cexState.WF ∧ ¬ (cexState.min_energy = minEnergySpec cexState) := by
  constructor
  · decide
  · decide

/-- The claim's formula amended to what the code computes: every token not
in its own room is charged the direct path to depth 0 of its home room,
ignoring occupancy and slot assignment (closed-form step count). -/
def minEnergyAmended (s : Burrow) : Nat :=
  (allAmphipodTypes.map fun a =>
    ((s.positions_slice a).map fun p =>
      match p with
      | .Room rm _ => if rm = a then 0 else stepsAmended p (.Room a 0) * multiplier a
      | _ => stepsAmended p (.Room a 0) * multiplier a).sum).sum

/-- Claim C3 (amended): `min_energy` equals the per-token direct-to-depth-0
closed form, with no open-slot assignment. -/
theorem claim_C3 (s : Burrow) : s.min_energy = minEnergyAmended s := by
  rw [Burrow.min_energy, minEnergyAmended]
  congr 1
  apply List.map_congr_left
  intro a _
  congr 1
  apply List.map_congr_left
  intro p _
  cases p with
  | Hallway n =>
    simp only [Path.cost, Path.steps_amended]
  | Room rm d =>
    by_cases hrm : a = rm
    · subst hrm
      simp
    · have hrm' : ¬ rm = a := fun hh => hrm hh.symm
      simp only [if_neg hrm, if_neg hrm', Path.cost, Path.steps_amended]

/-! ## Claim C1: the sample answers of `find_shortest`

`find_shortest` itself delegates to the external `petgraph::algo::astar`;
the repository code supplies the graph (edges, costs, goal test, heuristic).
We model the driver's contract from the spec and settle the claimed sample
answers with an explicit optimal move sequence (upper bound) and a verified
distance certificate (lower bound). -/

/-- One weighted search step: a generator-emitted transition applied to the
state, at its energy cost. -/
def StepCost (s s' : Burrow) (c : Nat) : Prop :=
  ∃ ts t, s.edges = some ts ∧ t ∈ ts ∧ s.apply_movement t = some s' ∧ c = t.cost

/-- Reachability at a given total cost through the move generator. -/
inductive ReachCost : Burrow → Burrow → Nat → Prop where
  | refl (s : Burrow) : ReachCost s s 0
  | head {s s' g : Burrow} {c₁ c₂ : Nat} :
      StepCost s s' c₁ → ReachCost s' g c₂ → ReachCost s g (c₁ + c₂)

/-- Modelled from the spec: `find_shortest` wraps the external
`petgraph::algo::astar` (code not in this repository); per spec §4.4 the
driver returns the minimum total cost over all transition sequences from the
start to a goal state.  `IsMinSolveCost s₀ c` says `c` is that minimum. -/
def IsMinSolveCost (s₀ : Burrow) (c : Nat) : Prop :=
  (∃ g, ReachCost s₀ g c ∧ g.is_goal = true)
  ∧ ∀ g' c', ReachCost s₀ g' c' → g'.is_goal = true → c ≤ c'

/-- Execute a list of (type, path) moves, checking each against the
generator, and accumulate the total cost. -/
def runMoves : Burrow → List (Amphipod × Path) → Option (Burrow × Nat)
  | s, [] => some (s, 0)
  | s, (a, path) :: rest =>
      match s.edges with
      | none => none
      | some ts =>
          let t : StateTransition := ⟨s, a, path⟩
          if t ∈ ts then
            match s.apply_movement t with
            | none => none
            | some s' =>
                match runMoves s' rest with
                | none => none
                | some (g, c) => some (g, t.cost + c)
          else none

theorem runMoves_reach (moves : List (Amphipod × Path)) :
    ∀ {s g : Burrow} {c : Nat}, runMoves s moves = some (g, c) → ReachCost s g c := by
  induction moves with
  | nil =>
    intro s g c h
    rw [runMoves] at h
    injection h with h
    injection h with h1 h2
    subst h1; subst h2
    exact ReachCost.refl s
  | cons m rest ih =>
    intro s g c h
    obtain ⟨a, path⟩ := m
    rw [runMoves] at h
    cases hts : s.edges with
    | none => rw [hts] at h; exact Option.noConfusion h
    | some ts =>
      simp only [hts] at h
      by_cases hmem : (⟨s, a, path⟩ : StateTransition) ∈ ts
      · rw [if_pos hmem] at h
        cases happ : s.apply_movement ⟨s, a, path⟩ with
        | none => rw [happ] at h; exact Option.noConfusion h
        | some s' =>
          simp only [happ] at h
          cases hrest : runMoves s' rest with
          | none => simp only [hrest] at h; exact Option.noConfusion h
          | some gc =>
            obtain ⟨g', c'⟩ := gc
            simp only [hrest] at h
            injection h with h
            injection h with h1 h2
            subst h1
            subst h2
            exact ReachCost.head ⟨ts, _, hts, hmem, happ, rfl⟩ (ih hrest)
      · rw [if_neg hmem] at h
        exact Option.noConfusion h

/-! ### The distance certificate

The lower bound is certified by a table of A*-explored states with their
exact distances, stored as a binary search tree over `Nat` state keys.  The
soundness proof only needs that looked-up entries are members of the tree
and that every member passed `checkEntry`; the key encoding need not be
proven injective, because `fvalue` re-checks that the decoded state equals
the state being evaluated. -/

/-- 5-bit position code: hallway offsets below 16, room cells 16–31. -/
def encodePos : Position → Nat
  | .Hallway n => n
  | .Room a d => 16 + a.idx * 4 + d

def decodeAmph : Nat → Amphipod
  | 0 => .Amber
  | 1 => .Bronze
  | 2 => .Copper
  | _ => .Desert

def decodePos (c : Nat) : Position :=
  if c < 16 then .Hallway c
  else .Room (decodeAmph ((c - 16) / 4)) ((c - 16) % 4)

/-- Low-to-high base-32 encoding of a position list. -/
def encodeList : List Position → Nat
  | [] => 0
  | p :: rest => encodePos p + 32 * encodeList rest

/-- Read `k` positions off the low end of a key. -/
def decodeList : Nat → Nat → List Position × Nat
  | 0, key => ([], key)
  | k + 1, key =>
      let p := decodePos (key % 32)
      let (rest, key') := decodeList k (key / 32)
      (p :: rest, key')

def Burrow.key (s : Burrow) : Nat := encodeList s.asList

/-- Decode a state of room size `n` from a key (slices in backing order). -/
def decodeBurrow (n : Nat) (key : Nat) : Burrow :=
  let (amber, k1) := decodeList n key
  let (bronze, k2) := decodeList n k1
  let (copper, k3) := decodeList n k2
  let (desert, _) := decodeList n k3
  { roomSize := n, amber, bronze, copper, desert }

/-- A distance table as a binary search tree over state keys. -/
inductive CertTree where
  | leaf : CertTree
  | node : CertTree → Nat → Nat → CertTree → CertTree

def CertTree.find : CertTree → Nat → Option (Nat × Nat)
  | .leaf, _ => none
  | .node l k v r, x =>
      if x < k then l.find x
      else if k < x then r.find x
      else some (k, v)

/-- Membership of an entry in the tree. -/
inductive CertTree.Entry (k v : Nat) : CertTree → Prop where
  | here (l r : CertTree) : CertTree.Entry k v (.node l k v r)
  | left {l : CertTree} (k' v' : Nat) (r : CertTree) :
      CertTree.Entry k v l → CertTree.Entry k v (.node l k' v' r)
  | right (l : CertTree) (k' v' : Nat) {r : CertTree} :
      CertTree.Entry k v r → CertTree.Entry k v (.node l k' v' r)

theorem find_entry {t : CertTree} {x k v : Nat} (h : t.find x = some (k, v)) :
    CertTree.Entry k v t := by
  induction t with
  | leaf => exact Option.noConfusion h
  | node l k' v' r ihl ihr =>
    rw [CertTree.find] at h
    by_cases h1 : x < k'
    · rw [if_pos h1] at h
      exact CertTree.Entry.left k' v' r (ihl h)
    · rw [if_neg h1] at h
      by_cases h2 : k' < x
      · rw [if_pos h2] at h
        exact CertTree.Entry.right l k' v' (ihr h)
      · rw [if_neg h2] at h
        injection h with h
        injection h with hk hv
        subst hk; subst hv
        exact CertTree.Entry.here l r

/-- The certified potential: `B - v` for a tabulated state below the bound,
the heuristic otherwise. -/
def fvalue (n B : Nat) (root : CertTree) (s : Burrow) : Nat :=
  match root.find s.key with
  | some (k, v) =>
      if decodeBurrow n k = s ∧ v + s.min_energy < B then B - v else s.min_energy
  | none => s.min_energy

/-- Verify one table entry: below the bound it must not be a goal, and every
emitted transition must respect the potential inequality. -/
def checkEntry (n B : Nat) (root : CertTree) (k v : Nat) : Bool :=
  let s := decodeBurrow n k
  if v + s.min_energy < B then
    !s.is_goal &&
      (match s.edges with
       | none => true
       | some ts => ts.all fun t =>
           match s.apply_movement t with
           | none => true
           | some s' => decide (B ≤ v + t.cost + fvalue n B root s'))
  else true

def checkTree (n B : Nat) (root : CertTree) : CertTree → Bool
  | .leaf => true
  | .node l k v r =>
      checkEntry n B root k v && checkTree n B root l && checkTree n B root r

theorem checkTree_entry {n B : Nat} {root t : CertTree} {k v : Nat}
    (hall : checkTree n B root t = true) (hmem : CertTree.Entry k v t) :
    checkEntry n B root k v = true := by
  induction hmem with
  | here l r =>
    rw [checkTree, Bool.and_eq_true, Bool.and_eq_true] at hall
    exact hall.1.1
  | left k' v' r _ ih =>
    rw [checkTree, Bool.and_eq_true, Bool.and_eq_true] at hall
    exact ih hall.1.2
  | right l k' v' _ ih =>
    rw [checkTree, Bool.and_eq_true] at hall
    exact ih hall.2

theorem fvalue_ge_h (n B : Nat) (root : CertTree) (s : Burrow) :
    s.min_energy ≤ fvalue n B root s := by
  cases hf : root.find s.key with
  | none => simp only [fvalue, hf]; exact Nat.le_refl _
  | some kv =>
    obtain ⟨k, v⟩ := kv
    simp only [fvalue, hf]
    by_cases hcond : decodeBurrow n k = s ∧ v + s.min_energy < B
    · rw [if_pos hcond]
      omega
    · rw [if_neg hcond]

/-- The potential drops by at most the step cost across any emitted step. -/
theorem fvalue_step {n B : Nat} {root : CertTree}
    (hcheck : checkTree n B root root = true) {s s' : Burrow} {c : Nat}
    (hst : StepCost s s' c) : fvalue n B root s ≤ c + fvalue n B root s' := by
  obtain ⟨ts, t, hts, ht, happ, rfl⟩ := hst
  have hcons : s.min_energy ≤ t.cost + s'.min_energy :=
    min_energy_consistent hts ht happ
  have hge := fvalue_ge_h n B root s'
  generalize hF : fvalue n B root s' = F at hge ⊢
  cases hf : root.find s.key with
  | none => simp only [fvalue, hf]; omega
  | some kv =>
    obtain ⟨k, v⟩ := kv
    simp only [fvalue, hf]
    by_cases hcond : decodeBurrow n k = s ∧ v + s.min_energy < B
    · rw [if_pos hcond]
      have hentry := checkTree_entry hcheck (find_entry hf)
      rw [checkEntry] at hentry
      rw [hcond.1] at hentry
      rw [if_pos hcond.2, Bool.and_eq_true] at hentry
      have hrest := hentry.2
      rw [hts] at hrest
      have hthis := List.all_eq_true.mp hrest t ht
      simp only [happ] at hthis
      have hb := of_decide_eq_true hthis
      rw [hF] at hb
      omega
    · rw [if_neg hcond]
      omega

theorem fvalue_goal {n B : Nat} {root : CertTree}
    (hcheck : checkTree n B root root = true) {g : Burrow}
    (hg : g.is_goal = true) : fvalue n B root g = g.min_energy := by
  cases hf : root.find g.key with
  | none => simp only [fvalue, hf]
  | some kv =>
    obtain ⟨k, v⟩ := kv
    simp only [fvalue, hf]
    by_cases hcond : decodeBurrow n k = g ∧ v + g.min_energy < B
    · exfalso
      have hentry := checkTree_entry hcheck (find_entry hf)
      rw [checkEntry] at hentry
      rw [hcond.1] at hentry
      rw [if_pos hcond.2, Bool.and_eq_true] at hentry
      have hgoal := hentry.1
      rw [hg] at hgoal
      exact Bool.noConfusion hgoal
    · rw [if_neg hcond]

/-- Soundness of the certificate: if every entry checks out and the start's
potential is at least `B`, every reachable goal costs at least `B`. -/
theorem cert_bound {n B : Nat} {root : CertTree}
    (hcheck : checkTree n B root root = true) {s₀ : Burrow}
    (hstart : B ≤ fvalue n B root s₀) :
    ∀ g c, ReachCost s₀ g c → g.is_goal = true → B ≤ c := by
  have key : ∀ s g c, ReachCost s g c → g.is_goal = true →
      fvalue n B root s ≤ c := by
    intro s g c hreach hgoal
    induction hreach with
    | refl s =>
      rw [fvalue_goal hcheck hgoal, min_energy_goal_zero hgoal]
    | head hstep _ ih =>
      have h1 := fvalue_step hcheck hstep
      have h2 := ih hgoal
      omega
  intro g c hreach hgoal
  exact Nat.le_trans hstart (key s₀ g c hreach hgoal)

/-! ### The claimed sample answers: upper bounds

The two optimal move sequences below reach goal states at exactly the
claimed energies, so 12521 and 44169 are reachable solve costs of the two
sample burrows.  The matching lower bounds would follow from the certificate
theory above (`cert_bound`) applied to the table of all A*-explored states
(4301 for the 2-deep sample, 62684 for the 4-deep one), but evaluating such
a table inside the kernel is far beyond feasible proof-checking time, so the
minimality half is left unproven here. -/

def part1Moves : List (Amphipod × Path) :=
  [ (.Desert, ⟨(.Room .Desert 0), (.Hallway 9)⟩)
  , (.Amber, ⟨(.Room .Desert 1), (.Hallway 1)⟩)
  , (.Bronze, ⟨(.Room .Copper 0), (.Hallway 3)⟩)
  , (.Copper, ⟨(.Room .Bronze 0), (.Room .Copper 0)⟩)
  , (.Desert, ⟨(.Room .Bronze 1), (.Room .Desert 1)⟩)
  , (.Bronze, ⟨(.Hallway 3), (.Room .Bronze 1)⟩)
  , (.Bronze, ⟨(.Room .Amber 0), (.Room .Bronze 0)⟩)
  , (.Amber, ⟨(.Hallway 1), (.Room .Amber 0)⟩)
  , (.Desert, ⟨(.Hallway 9), (.Room .Desert 0)⟩) ]

def part2Moves : List (Amphipod × Path) :=
  [ (.Desert, ⟨(.Room .Desert 0), (.Hallway 10)⟩)
  , (.Amber, ⟨(.Room .Desert 1), (.Hallway 0)⟩)
  , (.Bronze, ⟨(.Room .Copper 0), (.Hallway 9)⟩)
  , (.Bronze, ⟨(.Room .Copper 1), (.Hallway 7)⟩)
  , (.Amber, ⟨(.Room .Copper 2), (.Hallway 1)⟩)
  , (.Copper, ⟨(.Room .Bronze 0), (.Room .Copper 2)⟩)
  , (.Copper, ⟨(.Room .Bronze 1), (.Room .Copper 1)⟩)
  , (.Bronze, ⟨(.Room .Bronze 2), (.Hallway 5)⟩)
  , (.Desert, ⟨(.Room .Bronze 3), (.Hallway 3)⟩)
  , (.Bronze, ⟨(.Hallway 5), (.Room .Bronze 3)⟩)
  , (.Bronze, ⟨(.Hallway 7), (.Room .Bronze 2)⟩)
  , (.Copper, ⟨(.Room .Desert 2), (.Room .Copper 0)⟩)
  , (.Bronze, ⟨(.Hallway 9), (.Room .Bronze 1)⟩)
  , (.Amber, ⟨(.Room .Desert 3), (.Hallway 9)⟩)
  , (.Desert, ⟨(.Hallway 3), (.Room .Desert 3)⟩)
  , (.Bronze, ⟨(.Room .Amber 0), (.Room .Bronze 0)⟩)
  , (.Desert, ⟨(.Room .Amber 1), (.Room .Desert 2)⟩)
  , (.Desert, ⟨(.Room .Amber 2), (.Room .Desert 1)⟩)
  , (.Amber, ⟨(.Hallway 1), (.Room .Amber 2)⟩)
  , (.Amber, ⟨(.Hallway 0), (.Room .Amber 1)⟩)
  , (.Amber, ⟨(.Hallway 9), (.Room .Amber 0)⟩)
  , (.Desert, ⟨(.Hallway 10), (.Room .Desert 0)⟩) ]

def part1Goal : Burrow :=
  { roomSize := 2
  , amber := [.Room .Amber 1, .Room .Amber 0]
  , bronze := [.Room .Bronze 1, .Room .Bronze 0]
  , copper := [.Room .Copper 1, .Room .Copper 0]
  , desert := [.Room .Desert 1, .Room .Desert 0] }

def part2Goal : Burrow :=
  { roomSize := 4
  , amber := [.Room .Amber 3, .Room .Amber 2, .Room .Amber 1, .Room .Amber 0]
  , bronze := [.Room .Bronze 3, .Room .Bronze 2, .Room .Bronze 1, .Room .Bronze 0]
  , copper := [.Room .Copper 3, .Room .Copper 2, .Room .Copper 1, .Room .Copper 0]
  , desert := [.Room .Desert 3, .Room .Desert 2, .Room .Desert 1, .Room .Desert 0] }

set_option maxRecDepth 100000
set_option maxHeartbeats 40000000

theorem part1_upper_bound :
    ∃ g, ReachCost (burrow2From sampleInput) g 12521 ∧ g.is_goal = true :=
  ⟨part1Goal, runMoves_reach part1Moves (by decide), by decide⟩

theorem part2_upper_bound :
    ∃ g, ReachCost (burrow4From sampleInput) g 44169 ∧ g.is_goal = true :=
  ⟨part2Goal, runMoves_reach part2Moves (by decide), by decide⟩

end D23
